import Mathlib

/-!
A shallow embedding of the hyperloglog counter of counter.go.
Machine integers are modelled as Nat, with an explicit mod 2^w where the
width matters.  The float64 arithmetic is modelled exactly: every
subexpression that the code computes before taking a logarithm is a
dyadic/decimal rational, modelled in Rat, and the two logarithmic
corrections land in Real via Real.logb 10.
-/

namespace Hyperloglog

/-- Failure values of the library.  Go returns errNumRegistersTooSmall
and errMergeCounterMismatch; the alphaOutOfRange variant models the
panic(m) in the alpha step function. -/
inductive CounterError where
  | invalidRegisterCount : CounterError
  | mergeMismatch : CounterError
  | alphaOutOfRange : ℕ → CounterError
deriving DecidableEq

/-- The Counter struct.  regs holds the uint8 registers, m and b the
uint64 fields, alpha the float64 bias constant (an exact rational for
every reachable m).  hash is the pluggable strategy, modelled as the
64-bit value it yields for an input byte sequence (Go installs SHA-256
truncated to the first 8 bytes; that standard-library code is kept
abstract because no behaviour verified here depends on its values).
The scratch buffer hbuf is omitted: it only carries the hash output
into Add and is not otherwise observable. -/
structure Counter where
  regs : List ℕ
  m : ℕ
  b : ℕ
  alpha : ℚ
  hash : List ℕ → ℕ

/-- Go: const minNumRegisters = 16. -/
def minNumRegisters : ℕ := 16

/-- The step function for the bias-correction constant (Go func alpha).
The panic for m < 16 is modelled as an error value that the callers
propagate. -/
def alpha (m : ℕ) : Except CounterError ℚ :=
  if m < 16 then .error (.alphaOutOfRange m)
  else if m ≤ 32 then .ok 0.673
  else if m ≤ 64 then .ok 0.697
  else if m ≤ 128 then .ok 0.709
  else .ok (0.7213 / (1 + 1.079 / (m : ℚ)))

/-- Go func NewCounter.  b is uint64(math.Log2(float64(numRegisters))),
which for the reachable range (16 ≤ numRegisters < 2^32) is the floor
of the base-2 logarithm, i.e. Nat.log2.  The default hash strategy is
taken as a parameter, see the comment on Counter.hash. -/
def newCounter (hash : List ℕ → ℕ) (numRegisters : ℕ) :
    Except CounterError Counter :=
  if numRegisters < minNumRegisters then .error .invalidRegisterCount
  else
    match alpha numRegisters with
    | .error e => .error e
    | .ok a =>
        .ok { regs := List.replicate numRegisters 0
              m := numRegisters
              b := Nat.log2 numRegisters
              alpha := a
              hash := hash }

/-- Go func numZeroes: scans i = 0..63, mask = uint64(1<<63) >> i, and
returns the first i whose masked bit of v is set, or 64 when the loop
finishes without a break. -/
def numZeroes (v : ℕ) : ℕ :=
  match (List.range 64).find? (fun i => v &&& ((1 <<< 63) >>> i) != 0) with
  | some i => i
  | none => 64

/-- The register index computed inside Add: the hash value masked with
(1 << b) - 1. -/
def addIndex (c : Counter) (input : List ℕ) : ℕ :=
  (c.hash input % 2 ^ 64) &&& ((1 <<< c.b) - 1)

/-- Go method Add: hash the input into a 64-bit value v, take the low
b bits as the register index i and set regs[i] to
max(regs[i], numZeroes(v)+1).  The read regs[i] is modelled with getD
(Go would panic out of range; the index is proven in bounds). -/
def add (c : Counter) (input : List ℕ) : Counter :=
  let v := c.hash input % 2 ^ 64
  let i := addIndex c input
  { c with regs := c.regs.set i (max (c.regs.getD i 0) (numZeroes v + 1)) }

/-- The raw estimate computed by the first half of Go method Count:
z = Σ 2^(-reg) over the registers, then e = alpha * float64(m*m) * (1/z).
All of it is exact rational arithmetic. -/
def rawEstimate (c : Counter) : ℚ :=
  let z := (c.regs.map (fun reg : ℕ => (2 : ℚ) ^ (-(reg : ℤ)))).sum
  c.alpha * ((c.m * c.m : ℕ) : ℚ) * (1 / z)

/-- Go method correction: the nested range corrections applied to the
raw estimate e.  The branch conditions are exact rational comparisons;
only the corrected values involve the base-10 logarithm. -/
noncomputable def correction (c : Counter) (e : ℚ) : ℝ :=
  if e < (2 / 5 : ℚ) * (c.m : ℚ) then
    let v : ℕ := c.regs.countP (fun reg => reg == 0)
    if v ≠ 0 then (c.m : ℝ) * Real.logb 10 ((c.m : ℝ) / (v : ℝ))
    else (e : ℝ)
  else if e > (1 / 30 : ℚ) * 2 ^ 32 then
    -(2 ^ 32 : ℝ) * Real.logb 10 (1 - (e : ℝ) / 2 ^ 32)
  else (e : ℝ)

/-- Go method Count: the corrected raw estimate. -/
noncomputable def count (c : Counter) : ℝ :=
  correction c (rawEstimate c)

/-- One iteration of the Merge loop, acting on the visible state
(receiver, argument, freshly allocated result): only the result's
register i is written. -/
def mergeStep (s : Counter × Counter × Counter) (i : ℕ) :
    Counter × Counter × Counter :=
  (s.1, s.2.1,
    { s.2.2 with
        regs := s.2.2.regs.set i
          (max (s.1.regs.getD i 0) (s.2.1.regs.getD i 0)) })

/-- The Merge loop: for i, reg := range c.regs. -/
def mergeLoop (c other merged : Counter) : Counter × Counter × Counter :=
  (List.range c.regs.length).foldl mergeStep (c, other, merged)

/-- Go method Merge: mismatch check, allocation of the result via
NewCounter(uint32(c.m)) (the uint32 conversion is mod 2^32), then the
register-wise max loop.  Go's NewCounter installs the package default
hash in the result, passed here as defaultHash. -/
def merge (defaultHash : List ℕ → ℕ) (c other : Counter) :
    Except CounterError Counter :=
  if other.m ≠ c.m then .error .mergeMismatch
  else
    match newCounter defaultHash (c.m % 2 ^ 32) with
    | .error e => .error e
    | .ok merged => .ok (mergeLoop c other merged).2.2

/-- Go method Error: 1.04 * sqrt(m). -/
noncomputable def errorEst (c : Counter) : ℝ :=
  1.04 * Real.sqrt (c.m : ℝ)

/-- Well-formedness of a sketch: exactly what every counter reachable
through the public constructor (and preserved by add and merge)
satisfies: m came from a uint32 and passed the ≥ 16 validation, regs
has m entries, b is floor(log2 m) and alpha is the step-function value
for m. -/
def WF (c : Counter) : Prop :=
  minNumRegisters ≤ c.m ∧ c.m < 2 ^ 32 ∧ c.regs.length = c.m ∧
    c.b = Nat.log2 c.m ∧ alpha c.m = .ok c.alpha

/-- The count computation as the specification words it: the raw
estimate E = alpha * m^2 * (1 / Σ 2^(-register)), then exactly one of
the mutually exclusive corrections in order: small-range when
E < (2/5) m and the zero-register count V is nonzero, else large-range
when E > (1/30) 2^32, else E unchanged. -/
noncomputable def countSpec (c : Counter) : ℝ :=
  let e : ℚ := c.alpha * (c.m : ℚ) ^ 2 *
    (1 / (c.regs.map (fun reg : ℕ => (2 : ℚ) ^ (-(reg : ℤ)))).sum)
  let v : ℕ := c.regs.countP (fun reg => reg == 0)
  if e < (2 / 5 : ℚ) * (c.m : ℚ) ∧ v ≠ 0 then
    (c.m : ℝ) * Real.logb 10 ((c.m : ℝ) / (v : ℝ))
  else if e > (1 / 30 : ℚ) * 2 ^ 32 then
    -(2 ^ 32 : ℝ) * Real.logb 10 (1 - (e : ℝ) / 2 ^ 32)
  else (e : ℝ)

/-- The rank as the specification words it: the number of leading zero
bits of the 64-bit value v, counting from the most significant bit
(64 - bit-length of v, and 64 when v = 0). -/
def leadingZeros64 (v : ℕ) : ℕ :=
  if v = 0 then 64 else 63 - Nat.log2 v

/-- The rank written to a register: leading zeros plus one, 65 for a
zero hash value. -/
def rankSpec (v : ℕ) : ℕ :=
  leadingZeros64 v + 1

/-- A trivial hash strategy used to instantiate concrete sketches in
closed statements (no verified behaviour depends on hash values). -/
def zeroHash : List ℕ → ℕ := fun _ => 0

/-- A concrete well-formed sketch with 16 zeroed registers, exactly the
value newCounter zeroHash 16 produces. -/
def c16 : Counter :=
  { regs := List.replicate 16 0
    m := 16
    b := Nat.log2 16
    alpha := 0.673
    hash := zeroHash }

/-- A second 16-register sketch, with all registers at 1, used in
closed witness statements. -/
def c16b : Counter :=
  { regs := List.replicate 16 1
    m := 16
    b := Nat.log2 16
    alpha := 0.673
    hash := zeroHash }

/-- The value the alpha step function yields on its non-panicking
branches. -/
def alphaVal (m : ℕ) : ℚ :=
  if m ≤ 32 then 0.673
  else if m ≤ 64 then 0.697
  else if m ≤ 128 then 0.709
  else 0.7213 / (1 + 1.079 / (m : ℚ))

lemma alpha_eq_ok (n : ℕ) (hn : 16 ≤ n) : alpha n = .ok (alphaVal n) := by
  rw [alpha, if_neg (by omega), alphaVal]
  split_ifs <;> rfl

lemma newCounter_eq_ok (h : List ℕ → ℕ) (n : ℕ) (hn : 16 ≤ n) :
    newCounter h n =
      .ok ⟨List.replicate n 0, n, Nat.log2 n, alphaVal n, h⟩ := by
  have hlt : ¬ n < minNumRegisters := by
    simp only [minNumRegisters]
    omega
  rw [newCounter, if_neg hlt, alpha_eq_ok n hn]

lemma newCounter_ok_inv (h : List ℕ → ℕ) (n : ℕ) (c : Counter)
    (hc : newCounter h n = .ok c) :
    16 ≤ n ∧ c = ⟨List.replicate n 0, n, Nat.log2 n, alphaVal n, h⟩ := by
  by_cases hn : n < 16
  · rw [newCounter, if_pos (by simpa [minNumRegisters] using hn)] at hc
    cases hc
  · rw [newCounter_eq_ok h n (by omega)] at hc
    exact ⟨by omega, (Except.ok.inj hc).symm⟩

lemma add_m (c : Counter) (input : List ℕ) : (add c input).m = c.m := rfl

lemma foldl_add_m (c : Counter) (inputs : List (List ℕ)) :
    (inputs.foldl add c).m = c.m := by
  induction inputs generalizing c with
  | nil => rfl
  | cons x xs ih => simpa [List.foldl_cons, add_m] using ih (add c x)

/-- C6: construction fails with InvalidRegisterCount exactly when
numRegisters < 16 (in particular Create 8 fails and Create 16
succeeds), and for numRegisters ≥ 16 the only outcome is the new
sketch with m = numRegisters, b = floor(log2 m), the step-function
alpha value and m zero registers. -/
theorem newCounter_contract (h : List ℕ → ℕ) (n : ℕ) :
    (newCounter h n = .error .invalidRegisterCount ↔ n < 16) ∧
    (16 ≤ n → ∃ c, newCounter h n = .ok c ∧ c.m = n ∧
      c.b = Nat.log2 n ∧ alpha n = .ok c.alpha ∧
      c.regs = List.replicate n 0 ∧ c.hash = h) := by
  constructor
  · constructor
    · intro he
      by_contra hn
      rw [newCounter_eq_ok h n (by omega)] at he
      cases he
    · intro hn
      rw [newCounter, if_pos (by simpa [minNumRegisters] using hn)]
  · intro hn
    exact ⟨_, newCounter_eq_ok h n hn, rfl, rfl, alpha_eq_ok n hn, rfl, rfl⟩

/-- Witness for C6 at numRegisters = 16. -/
theorem newCounter_contract_witness :
    ∃ c, newCounter zeroHash 16 = .ok c ∧ c.m = 16 ∧
      c.b = Nat.log2 16 ∧ alpha 16 = .ok c.alpha ∧
      c.regs = List.replicate 16 0 ∧ c.hash = zeroHash :=
  (newCounter_contract zeroHash 16).2 (by omega)

/-- C7: the panic branch of the alpha step function can never fire
through the public constructor: for every argument, NewCounter either
rejects it with InvalidRegisterCount or returns a sketch whose alpha
the step function produced on a non-panicking branch. -/
theorem alpha_assert_unreachable (h : List ℕ → ℕ) (n : ℕ) :
    newCounter h n = .error .invalidRegisterCount ∨
      ∃ c, newCounter h n = .ok c ∧ alpha c.m = .ok c.alpha := by
  by_cases hn : n < 16
  · exact .inl (by rw [newCounter, if_pos (by simpa [minNumRegisters] using hn)])
  · exact .inr ⟨_, newCounter_eq_ok h n (by omega), alpha_eq_ok n (by omega)⟩

/-- C10: for every sketch that NewCounter returns (any numRegisters
≥ 16, powers of two or not) and every input, the register index of Add
is at most 2^b - 1 ≤ m - 1, hence within the register slice. -/
theorem add_index_in_bounds (h : List ℕ → ℕ) (n : ℕ) (c : Counter)
    (input : List ℕ) (hc : newCounter h n = .ok c) :
    addIndex c input ≤ 2 ^ c.b - 1 ∧ 2 ^ c.b - 1 ≤ c.m - 1 ∧
      addIndex c input < c.regs.length := by
  obtain ⟨hn, rfl⟩ := newCounter_ok_inv h n c hc
  have h2 : 2 ^ Nat.log2 n ≤ n := Nat.log2_self_le (by omega)
  have h1 : (h input % 2 ^ 64) &&& ((1 <<< Nat.log2 n) - 1) ≤
      2 ^ Nat.log2 n - 1 := by
    rw [Nat.shiftLeft_eq, one_mul]
    exact Nat.and_le_right
  refine ⟨h1, ?_, ?_⟩
  · show 2 ^ Nat.log2 n - 1 ≤ n - 1
    omega
  · show (h input % 2 ^ 64) &&& ((1 <<< Nat.log2 n) - 1) <
      (List.replicate n 0).length
    rw [List.length_replicate]
    omega

/-- Witness for C10 at the non-power-of-two register count 20. -/
theorem add_index_in_bounds_witness :
    addIndex ⟨List.replicate 20 0, 20, Nat.log2 20, alphaVal 20, zeroHash⟩ [] ≤
        2 ^ (⟨List.replicate 20 0, 20, Nat.log2 20, alphaVal 20, zeroHash⟩ :
          Counter).b - 1 ∧
      2 ^ (⟨List.replicate 20 0, 20, Nat.log2 20, alphaVal 20, zeroHash⟩ :
          Counter).b - 1 ≤
        (⟨List.replicate 20 0, 20, Nat.log2 20, alphaVal 20, zeroHash⟩ :
          Counter).m - 1 ∧
      addIndex ⟨List.replicate 20 0, 20, Nat.log2 20, alphaVal 20, zeroHash⟩ [] <
        (⟨List.replicate 20 0, 20, Nat.log2 20, alphaVal 20, zeroHash⟩ :
          Counter).regs.length :=
  add_index_in_bounds zeroHash 20 _ [] (newCounter_eq_ok zeroHash 20 (by omega))

/-- C9: Error() is exactly 1.04 * sqrt(m); it depends only on the
register count and is unchanged by any sequence of Add calls (Count
does not mutate the sketch at all in this functional model). -/
theorem error_formula :
    (∀ c : Counter, errorEst c = 1.04 * Real.sqrt (c.m : ℝ)) ∧
    (∀ c c' : Counter, c.m = c'.m → errorEst c = errorEst c') ∧
    (∀ (c : Counter) (inputs : List (List ℕ)),
      errorEst (inputs.foldl add c) = errorEst c) := by
  refine ⟨fun c => rfl, fun c c' h => by rw [errorEst, errorEst, h],
    fun c inputs => by rw [errorEst, errorEst, foldl_add_m]⟩

/-- Witness for C9: two 16-register sketches with different registers
have the same error estimate. -/
theorem error_formula_witness : c16.m = c16b.m ∧ errorEst c16 = errorEst c16b :=
  ⟨rfl, error_formula.2.1 c16 c16b rfl⟩

/-- C1 (failing input): the sketch freshly constructed with 16
registers does not count 0.  All registers are zero, so the raw
estimate is alpha * m = 10.768; that is not below the code's
small-range threshold (2/5) * m = 6.4 — the cited Flajolet et al.
algorithm uses (5/2) * m there — so no correction fires and Count
returns 10.768. -/
lemma count_c16_eq : count c16 = (10.768 : ℝ) := by
  have he : rawEstimate c16 = 10.768 := by
    simp [rawEstimate, c16, List.map_replicate, List.sum_replicate]
    norm_num
  have hA : ¬ ((10.768 : ℚ) < (2 / 5 : ℚ) * (c16.m : ℚ)) := by
    norm_num [c16]
  have hB : ¬ ((10.768 : ℚ) > (1 / 30 : ℚ) * 2 ^ 32) := by
    norm_num
  rw [count, he, correction, if_neg hA, if_neg hB]
  norm_num

theorem count_fresh_counter_ne_zero :
    ∃ c, newCounter zeroHash 16 = .ok c ∧
      count c = (10.768 : ℝ) ∧ count c ≠ 0 := by
  refine ⟨c16, rfl, count_c16_eq, ?_⟩
  intro h0
  have hc := count_c16_eq
  rw [h0] at hc
  norm_num at hc

lemma foldl_mergeStep_fst (l : List ℕ) (s : Counter × Counter × Counter) :
    (l.foldl mergeStep s).1 = s.1 ∧ (l.foldl mergeStep s).2.1 = s.2.1 := by
  induction l generalizing s with
  | nil => exact ⟨rfl, rfl⟩
  | cons x xs ih => exact ih (mergeStep s x)

lemma set_append_length_left (l₁ l₂ : List ℕ) (v : ℕ) :
    (l₁ ++ l₂).set l₁.length v = l₁ ++ l₂.set 0 v := by
  induction l₁ with
  | nil => rfl
  | cons x xs ih =>
      show x :: (xs ++ l₂).set xs.length v = x :: (xs ++ l₂.set 0 v)
      rw [ih]

lemma foldl_mergeStep_result (a b : Counter) :
    ∀ (n : ℕ) (mg : Counter), n ≤ mg.regs.length →
      ((List.range n).foldl mergeStep (a, b, mg)).2.2 =
        { mg with regs :=
            ((List.range n).map
              (fun i => max (a.regs.getD i 0) (b.regs.getD i 0)) ++
              mg.regs.drop n) } := by
  intro n
  induction n with
  | zero => intro mg _; rfl
  | succ n ih =>
      intro mg hn
      rw [List.range_succ, List.foldl_append, List.foldl_cons, List.foldl_nil]
      rcases hE : (List.range n).foldl mergeStep (a, b, mg) with ⟨P1, P2, P3⟩
      have h1 : P1 = a := by
        have h := (foldl_mergeStep_fst (List.range n) (a, b, mg)).1
        rw [hE] at h
        exact h
      have h2 : P2 = b := by
        have h := (foldl_mergeStep_fst (List.range n) (a, b, mg)).2
        rw [hE] at h
        exact h
      have h3 : P3 =
          { mg with regs :=
              ((List.range n).map
                (fun i => max (a.regs.getD i 0) (b.regs.getD i 0)) ++
                mg.regs.drop n) } := by
        have h := ih mg (by omega)
        rw [hE] at h
        exact h
      simp only [mergeStep]
      rw [h1, h2, h3]
      congr 1
      have hset := set_append_length_left
        ((List.range n).map (fun i => max (a.regs.getD i 0) (b.regs.getD i 0)))
        (mg.regs.drop n) (max (a.regs.getD n 0) (b.regs.getD n 0))
      have hMlen : ((List.range n).map
          (fun i => max (a.regs.getD i 0) (b.regs.getD i 0))).length = n := by
        simp
      rw [hMlen] at hset
      rw [hset, List.drop_eq_getElem_cons (show n < mg.regs.length by omega)]
      simp only [List.set_cons_zero, List.map_append, List.map_cons,
        List.map_nil, List.append_assoc, List.cons_append, List.nil_append]

lemma map_range_max_eq_zipWith (A B : List ℕ) (h : B.length = A.length) :
    (List.range A.length).map (fun i => max (A.getD i 0) (B.getD i 0)) =
      A.zipWith max B := by
  apply List.ext_getElem
  · simp [List.length_zipWith, h]
  · intro i h1 h2
    simp only [List.getElem_map, List.getElem_range, List.getElem_zipWith]
    have hiA : i < A.length := by simpa using h1
    rw [List.getD_eq_getElem A 0 hiA, List.getD_eq_getElem B 0 (by omega)]

lemma WF_alpha_val (c : Counter) (hc : WF c) : c.alpha = alphaVal c.m := by
  have h := hc.2.2.2.2
  rw [alpha_eq_ok c.m hc.1] at h
  exact (Except.ok.inj h).symm

lemma merge_eq_ok (dh : List ℕ → ℕ) (a b : Counter) (ha : WF a) (hb : WF b)
    (hm : a.m = b.m) :
    merge dh a b = .ok ⟨a.regs.zipWith max b.regs, a.m, Nat.log2 a.m,
      alphaVal a.m, dh⟩ := by
  have hmod : a.m % 2 ^ 32 = a.m := Nat.mod_eq_of_lt ha.2.1
  rw [merge, if_neg (by omega), hmod, newCounter_eq_ok dh a.m ha.1]
  have hlen : a.regs.length ≤
      ((⟨List.replicate a.m 0, a.m, Nat.log2 a.m, alphaVal a.m, dh⟩ :
        Counter)).regs.length := by
    show a.regs.length ≤ (List.replicate a.m (0 : ℕ)).length
    rw [List.length_replicate, ha.2.2.1]
  show Except.ok (mergeLoop a b
    ⟨List.replicate a.m 0, a.m, Nat.log2 a.m, alphaVal a.m, dh⟩).2.2 = _
  rw [mergeLoop, foldl_mergeStep_result a b a.regs.length _ hlen]
  have hdrop : (List.replicate a.m (0 : ℕ)).drop a.regs.length = [] :=
    List.drop_eq_nil_of_le (le_of_eq (by rw [List.length_replicate, ha.2.2.1]))
  have hBA : b.regs.length = a.regs.length := by
    rw [ha.2.2.1, hb.2.2.1, hm]
  congr 1
  show ({ regs :=
            ((List.range a.regs.length).map
              (fun i => max (a.regs.getD i 0) (b.regs.getD i 0)) ++
              (List.replicate a.m (0 : ℕ)).drop a.regs.length)
          m := a.m
          b := Nat.log2 a.m
          alpha := alphaVal a.m
          hash := dh } : Counter) = _
  rw [hdrop, List.append_nil, map_range_max_eq_zipWith a.regs b.regs hBA]


lemma merge_result_wf (dh : List ℕ → ℕ) (a b : Counter)
    (ha : WF a) (hb : WF b) (hm : a.m = b.m) :
    WF ⟨a.regs.zipWith max b.regs, a.m, Nat.log2 a.m, alphaVal a.m, dh⟩ := by
  refine ⟨ha.1, ha.2.1, ?_, rfl, alpha_eq_ok a.m ha.1⟩
  show (a.regs.zipWith max b.regs).length = a.m
  rw [List.length_zipWith, ha.2.2.1, hb.2.2.1, hm, min_self]

lemma zipWith_max_getD (A B : List ℕ) (h : B.length = A.length) (i : ℕ) :
    (A.zipWith max B).getD i 0 = max (A.getD i 0) (B.getD i 0) := by
  by_cases hi : i < A.length
  · rw [List.getD_eq_getElem (A.zipWith max B) 0
        (by rw [List.length_zipWith, h, min_self]; omega),
      List.getD_eq_getElem A 0 hi, List.getD_eq_getElem B 0 (by omega),
      List.getElem_zipWith]
  · rw [List.getD_eq_default A 0 (by omega), List.getD_eq_default B 0 (by omega),
      List.getD_eq_default _ 0 (by rw [List.length_zipWith, h, min_self]; omega)]
    rfl

lemma zipWith_max_comm (A B : List ℕ) : A.zipWith max B = B.zipWith max A :=
  List.zipWith_comm_of_comm max Nat.max_comm A B

lemma zipWith_max_assoc (A B C : List ℕ) :
    (A.zipWith max B).zipWith max C = A.zipWith max (B.zipWith max C) := by
  induction A generalizing B C with
  | nil => simp
  | cons x xs ih =>
      cases B with
      | nil => simp
      | cons y ys =>
          cases C with
          | nil => simp
          | cons z zs => simp [ih, Nat.max_assoc]

lemma zipWith_max_self (A : List ℕ) : A.zipWith max A = A := by
  induction A with
  | nil => rfl
  | cons x xs ih => simp [ih]

/-- C3: merging fails with MergeMismatch exactly when the register
counts differ, and on success yields a fresh sketch with the operands'
m, b and alpha whose register at every index is the maximum of the
operands' registers. -/
theorem merge_contract (dh : List ℕ → ℕ) (a b : Counter)
    (ha : WF a) (hb : WF b) :
    (merge dh a b = .error .mergeMismatch ↔ a.m ≠ b.m) ∧
    (a.m = b.m → ∃ r, merge dh a b = .ok r ∧ r.m = a.m ∧ r.b = a.b ∧
      r.b = b.b ∧ r.alpha = a.alpha ∧ r.alpha = b.alpha ∧
      r.regs = a.regs.zipWith max b.regs ∧
      ∀ i, r.regs.getD i 0 = max (a.regs.getD i 0) (b.regs.getD i 0)) := by
  constructor
  · constructor
    · intro he
      by_contra hne
      rw [merge_eq_ok dh a b ha hb (by omega)] at he
      cases he
    · intro hne
      rw [merge, if_pos (by omega)]
  · intro hm
    refine ⟨_, merge_eq_ok dh a b ha hb hm, rfl, ?_, ?_, ?_, ?_, rfl, ?_⟩
    · exact ha.2.2.2.1.symm
    · rw [hb.2.2.2.1, hm]
    · exact (WF_alpha_val a ha).symm
    · rw [WF_alpha_val b hb, hm]
    · intro i
      exact zipWith_max_getD a.regs b.regs
        (by rw [ha.2.2.1, hb.2.2.1, hm]) i


/-- C4: register-wise, merge is commutative, associative and
idempotent on compatible well-formed sketches. -/
theorem merge_comm_assoc_idem (dh : List ℕ → ℕ) (a b c : Counter)
    (ha : WF a) (hb : WF b) (hc : WF c)
    (hab : a.m = b.m) (hbc : b.m = c.m) :
    (∃ r1 r2, merge dh a b = .ok r1 ∧ merge dh b a = .ok r2 ∧
      r1.regs = r2.regs) ∧
    (∃ r1 r2 s1 s2, merge dh a b = .ok r1 ∧ merge dh r1 c = .ok s1 ∧
      merge dh b c = .ok r2 ∧ merge dh a r2 = .ok s2 ∧
      s1.regs = s2.regs) ∧
    (∃ r, merge dh a a = .ok r ∧ r.regs = a.regs) := by
  refine ⟨⟨_, _, merge_eq_ok dh a b ha hb hab,
      merge_eq_ok dh b a hb ha hab.symm, zipWith_max_comm a.regs b.regs⟩,
    ?_, ⟨_, merge_eq_ok dh a a ha ha rfl, zipWith_max_self a.regs⟩⟩
  have hr1 := merge_result_wf dh a b ha hb hab
  have hr2 := merge_result_wf dh b c hb hc hbc
  refine ⟨_, _, _, _, merge_eq_ok dh a b ha hb hab,
    merge_eq_ok dh _ c hr1 hc (hab.trans hbc),
    merge_eq_ok dh b c hb hc hbc,
    merge_eq_ok dh a _ ha hr2 (by rw [hab, hbc]), ?_⟩
  exact zipWith_max_assoc a.regs b.regs c.regs

/-- C8: the Merge loop never writes to either operand: after any number
of iterations both operands are exactly the sketches they were before
the call (the loop's only write target is the freshly allocated result). -/
theorem merge_preserves_operands (a b merged : Counter) :
    (mergeLoop a b merged).1 = a ∧ (mergeLoop a b merged).2.1 = b :=
  foldl_mergeStep_fst (List.range a.regs.length) (a, b, merged)

lemma wf_c16 : WF c16 :=
  ⟨by decide, by decide, by decide, rfl, rfl⟩

lemma wf_c16b : WF c16b :=
  ⟨by decide, by decide, by decide, rfl, rfl⟩

/-- A third 16-register sketch for the associativity witness. -/
def c16c : Counter :=
  { regs := List.replicate 8 2 ++ List.replicate 8 0
    m := 16
    b := Nat.log2 16
    alpha := 0.673
    hash := zeroHash }

lemma wf_c16c : WF c16c :=
  ⟨by decide, by decide, by decide, rfl, rfl⟩

/-- Witness for C3 at two concrete compatible sketches. -/
theorem merge_contract_witness :
    (merge zeroHash c16 c16b = .error .mergeMismatch ↔ c16.m ≠ c16b.m) ∧
    (c16.m = c16b.m → ∃ r, merge zeroHash c16 c16b = .ok r ∧ r.m = c16.m ∧
      r.b = c16.b ∧ r.b = c16b.b ∧ r.alpha = c16.alpha ∧
      r.alpha = c16b.alpha ∧ r.regs = c16.regs.zipWith max c16b.regs ∧
      ∀ i, r.regs.getD i 0 = max (c16.regs.getD i 0) (c16b.regs.getD i 0)) :=
  merge_contract zeroHash c16 c16b wf_c16 wf_c16b

/-- Witness for C4 at three concrete compatible sketches. -/
theorem merge_comm_assoc_idem_witness :
    (∃ r1 r2, merge zeroHash c16 c16b = .ok r1 ∧
      merge zeroHash c16b c16 = .ok r2 ∧ r1.regs = r2.regs) ∧
    (∃ r1 r2 s1 s2, merge zeroHash c16 c16b = .ok r1 ∧
      merge zeroHash r1 c16c = .ok s1 ∧ merge zeroHash c16b c16c = .ok r2 ∧
      merge zeroHash c16 r2 = .ok s2 ∧ s1.regs = s2.regs) ∧
    (∃ r, merge zeroHash c16 c16 = .ok r ∧ r.regs = c16.regs) :=
  merge_comm_assoc_idem zeroHash c16 c16b c16c wf_c16 wf_c16b wf_c16c rfl rfl

lemma find?_range_eq_some (p : ℕ → Bool) (n j : ℕ) (hj : j < n)
    (hfalse : ∀ k, k < j → p k = false) (htrue : p j = true) :
    (List.range n).find? p = some j := by
  have hsplit : List.range n = List.range j ++ List.range' j (n - j) := by
    rw [List.range_eq_range', List.range_eq_range']
    have h := List.range'_append 0 j (n - j) 1
    rw [zero_add, one_mul] at h
    conv_lhs => rw [show n = n - j + j from by omega]
    exact h.symm
  rw [hsplit, List.find?_append]
  have hnone : (List.range j).find? p = none := by
    rw [List.find?_eq_none]
    intro x hx
    rw [List.mem_range] at hx
    simp [hfalse x hx]
  rw [hnone, Option.none_or]
  have hcons : List.range' j (n - j) = j :: List.range' (j + 1) (n - j - 1) := by
    obtain ⟨d, hd⟩ : ∃ d, n - j = d + 1 := ⟨n - j - 1, by omega⟩
    rw [hd, List.range'_succ]
    simp
  rw [hcons]
  exact List.find?_cons_of_pos _ htrue

lemma numZeroes_bit_eq (v k : ℕ) (hk : k ≤ 63) :
    (v &&& ((1 <<< 63) >>> k) != 0) = v.testBit (63 - k) := by
  rw [Nat.shiftLeft_eq, one_mul, Nat.shiftRight_eq_div_pow,
    Nat.pow_div hk (by norm_num), Nat.and_two_pow]
  cases h : v.testBit (63 - k) <;> simp

lemma testBit_log2_self (v : ℕ) (hv : v ≠ 0) : v.testBit v.log2 = true := by
  have h1 : 2 ^ v.log2 ≤ v := Nat.log2_self_le hv
  have h2 : v < 2 ^ (v.log2 + 1) := Nat.lt_log2_self
  have hpos : 0 < 2 ^ v.log2 := Nat.pos_pow_of_pos _ (by norm_num)
  have hdiv : v / 2 ^ v.log2 = 1 := by
    have hle : 1 ≤ v / 2 ^ v.log2 := by
      rw [Nat.le_div_iff_mul_le hpos]
      omega
    have hlt : v / 2 ^ v.log2 < 2 := by
      rw [Nat.div_lt_iff_lt_mul hpos]
      rw [pow_succ] at h2
      omega
    omega
  rw [Nat.testBit_to_div_mod, hdiv]
  rfl

lemma numZeroes_eq (v : ℕ) (hv : v < 2 ^ 64) :
    numZeroes v = leadingZeros64 v := by
  by_cases h0 : v = 0
  · subst h0
    decide
  · have hL : v.log2 ≤ 63 := by
      by_contra hgt
      have h1 : 2 ^ v.log2 ≤ v := Nat.log2_self_le h0
      have : (2:ℕ) ^ 64 ≤ 2 ^ v.log2 := Nat.pow_le_pow_right (by norm_num) (by omega)
      omega
    have hfind : (List.range 64).find? (fun i => v &&& ((1 <<< 63) >>> i) != 0) =
        some (63 - v.log2) := by
      apply find?_range_eq_some _ _ _ (by omega)
      · intro k hk
        rw [numZeroes_bit_eq v k (by omega)]
        apply Nat.testBit_lt_two_pow
        calc v < 2 ^ (v.log2 + 1) := Nat.lt_log2_self
          _ ≤ 2 ^ (63 - k) := Nat.pow_le_pow_right (by norm_num) (by omega)
      · rw [numZeroes_bit_eq v (63 - v.log2) (by omega)]
        rw [show 63 - (63 - v.log2) = v.log2 by omega]
        exact testBit_log2_self v h0
    rw [numZeroes, hfind, leadingZeros64, if_neg h0]


/-- C5: on a power-of-two register count, Add's whole effect is to
update the single register indexed by the low b bits of the hash value
(equal to v AND (m - 1)) with the max of its old value and the rank
(leading zero bits of v plus one, 65 for v = 0). -/
theorem add_spec (c : Counter) (input : List ℕ) (_hwf : WF c)
    (hpow : c.m = 2 ^ c.b) :
    add c input =
      { c with regs :=
          (c.regs.set ((c.hash input % 2 ^ 64) &&& (c.m - 1))
            (max (c.regs.getD ((c.hash input % 2 ^ 64) &&& (c.m - 1)) 0)
              (rankSpec (c.hash input % 2 ^ 64)))) } := by
  have hmask : (1 <<< c.b) - 1 = c.m - 1 := by
    rw [Nat.shiftLeft_eq, one_mul, hpow]
  have hv : c.hash input % 2 ^ 64 < 2 ^ 64 :=
    Nat.mod_lt _ (by norm_num)
  have hrank : numZeroes (c.hash input % 2 ^ 64) + 1 =
      rankSpec (c.hash input % 2 ^ 64) := by
    rw [numZeroes_eq _ hv, rankSpec]
  show ({ c with regs :=
      (c.regs.set ((c.hash input % 2 ^ 64) &&& ((1 <<< c.b) - 1))
        (max (c.regs.getD ((c.hash input % 2 ^ 64) &&& ((1 <<< c.b) - 1)) 0)
          (numZeroes (c.hash input % 2 ^ 64) + 1))) } : Counter) = _
  rw [hmask, hrank]

/-- Witness for C5 at a concrete power-of-two sketch and input. -/
theorem add_spec_witness :
    WF c16 ∧ c16.m = 2 ^ c16.b ∧
    add c16 [7] =
      { c16 with regs :=
          (c16.regs.set ((c16.hash [7] % 2 ^ 64) &&& (c16.m - 1))
            (max (c16.regs.getD ((c16.hash [7] % 2 ^ 64) &&& (c16.m - 1)) 0)
              (rankSpec (c16.hash [7] % 2 ^ 64)))) } :=
  ⟨wf_c16, by norm_num [c16, Nat.log2],
    add_spec c16 [7] wf_c16 (by norm_num [c16, Nat.log2])⟩

lemma alphaVal_ge (m : ℕ) (hm : 16 ≤ m) : (1 / 5 : ℚ) ≤ alphaVal m := by
  rw [alphaVal]
  split_ifs with h1 h2 h3
  · norm_num
  · norm_num
  · norm_num
  · have hm129 : (129 : ℚ) ≤ (m : ℚ) := by exact_mod_cast (by omega : 129 ≤ m)
    have h4 : (1.079 : ℚ) / (m : ℚ) ≤ (1.079 : ℚ) / 129 := by gcongr
    calc (1/5 : ℚ) ≤ 0.7213 / (1 + 1.079 / 129) := by norm_num
      _ ≤ 0.7213 / (1 + 1.079 / (m : ℚ)) := by gcongr

lemma sum_terms_le_half (regs : List ℕ) (h : ∀ r ∈ regs, r ≠ 0) :
    ((regs.map (fun reg : ℕ => (2 : ℚ) ^ (-(reg : ℤ)))).sum ≤
      (regs.length : ℚ) * (1 / 2)) := by
  have hb : ∀ x ∈ regs.map (fun reg : ℕ => (2 : ℚ) ^ (-(reg : ℤ))),
      x ≤ 1 / 2 := by
    intro x hx
    obtain ⟨r, hr, rfl⟩ := List.mem_map.mp hx
    have hr1 : 1 ≤ r := Nat.one_le_iff_ne_zero.mpr (h r hr)
    rw [zpow_neg, zpow_natCast,
      show (1 : ℚ) / 2 = ((2 : ℚ) ^ (1 : ℕ))⁻¹ from by norm_num]
    gcongr
    norm_num
  have hs := List.sum_le_card_nsmul _ _ hb
  rw [List.length_map, nsmul_eq_mul] at hs
  exact hs

lemma sum_terms_pos (regs : List ℕ) (hne : regs ≠ []) :
    0 < (regs.map (fun reg : ℕ => (2 : ℚ) ^ (-(reg : ℤ)))).sum := by
  apply List.sum_pos
  · intro x hx
    obtain ⟨r, hr, rfl⟩ := List.mem_map.mp hx
    positivity
  · simpa using hne

lemma no_zero_raw_lower (c : Counter) (hwf : WF c)
    (hzero : c.regs.countP (fun reg => reg == 0) = 0) :
    (2 / 5 : ℚ) * (c.m : ℚ) ≤ rawEstimate c := by
  have hall : ∀ r ∈ c.regs, r ≠ 0 := by
    intro r hr
    have hc := List.countP_eq_zero.mp hzero r hr
    simpa using hc
  have hm16 : (16 : ℚ) ≤ (c.m : ℚ) := by exact_mod_cast hwf.1
  have hmpos : (0 : ℚ) < (c.m : ℚ) := by linarith
  have hne : c.regs ≠ [] := by
    intro hnil
    have hlen := hwf.2.2.1
    have h16 : 16 ≤ c.m := hwf.1
    rw [hnil] at hlen
    simp at hlen
    omega
  have hSpos := sum_terms_pos c.regs hne
  have hSle := sum_terms_le_half c.regs hall
  rw [hwf.2.2.1] at hSle
  have hS2 : (2 : ℚ) / (c.m : ℚ) ≤
      1 / (c.regs.map (fun reg : ℕ => (2 : ℚ) ^ (-(reg : ℤ)))).sum := by
    rw [div_le_div_iff₀ hmpos hSpos]
    linarith
  have halpha : (1 / 5 : ℚ) ≤ c.alpha := by
    rw [WF_alpha_val c hwf]
    exact alphaVal_ge c.m hwf.1
  have hkey : (2 / 5 : ℚ) * (c.m : ℚ) =
      (1 / 5) * ((c.m : ℚ) * (c.m : ℚ)) * (2 / (c.m : ℚ)) := by
    field_simp
    ring
  rw [hkey, rawEstimate]
  push_cast
  gcongr

/-- C2: for every well-formed sketch, Count is exactly the
specification pipeline: raw estimate E = alpha * m^2 * (1 / Σ
2^(-register)), then exactly one of the mutually exclusive corrections
in order (small-range with the base-10 logarithm when E < (2/5) m and
V ≠ 0, else large-range with the base-10 logarithm when
E > (1/30) 2^32, else E unchanged). -/
theorem count_eq_countSpec (c : Counter) (hwf : WF c) :
    count c = countSpec c := by
  have hE : c.alpha * (c.m : ℚ) ^ 2 *
      (1 / (c.regs.map (fun reg : ℕ => (2 : ℚ) ^ (-(reg : ℤ)))).sum) =
      rawEstimate c := by
    rw [rawEstimate]
    push_cast
    ring
  simp only [count, correction, countSpec]
  rw [hE]
  by_cases hV : c.regs.countP (fun reg => reg == 0) = 0
  · have hge := no_zero_raw_lower c hwf hV
    rw [if_neg (not_lt.mpr hge), if_neg
      (show ¬(rawEstimate c < (2 / 5 : ℚ) * (c.m : ℚ) ∧
          c.regs.countP (fun reg => reg == 0) ≠ 0) from fun h => h.2 hV)]
  · by_cases hA : rawEstimate c < (2 / 5 : ℚ) * (c.m : ℚ)
    · rw [if_pos hA, if_pos
        (show rawEstimate c < (2 / 5 : ℚ) * (c.m : ℚ) ∧
          c.regs.countP (fun reg => reg == 0) ≠ 0 from ⟨hA, hV⟩),
        if_pos hV]
    · rw [if_neg hA, if_neg
        (show ¬(rawEstimate c < (2 / 5 : ℚ) * (c.m : ℚ) ∧
          c.regs.countP (fun reg => reg == 0) ≠ 0) from fun h => hA h.1)]

/-- Witness for C2 at a concrete well-formed sketch. -/
theorem count_eq_countSpec_witness :
    WF c16 ∧ count c16 = countSpec c16 :=
  ⟨wf_c16, count_eq_countSpec c16 wf_c16⟩

end Hyperloglog
